import Mathlib

/-!
Verification of the core algorithms of the `ardiex` incremental backup engine.

The Rust sources are shallowly embedded: file contents are `List Nat` (byte
sequences), path/name strings are `List Char`, machine integers are `Nat`,
fallible operations return `Option`, and the SHA-256 hash is an arbitrary
injective function parameter (comparing hashes in the code stands for
comparing contents; the injectivity hypothesis is the usual
collision-freedom assumption).  Rust's stable `sort_by` is modelled by
`List.insertionSort` (also stable, identical output for a total preorder).
-/

namespace Ardiex

/-! ## Block-delta codec (src/delta.rs) -/

/-- `BLOCK_SIZE` in src/delta.rs: fixed 4 KiB blocks. -/
def BLOCK_SIZE : Nat := 4096

/-- Split a byte list into consecutive chunks of at most `bs` bytes, in order.
This models the read loops in src/delta.rs that fill a `bs`-byte buffer until
a read returns 0 bytes (a read into an empty buffer returns 0 at once, hence
the `bs = 0` case yields no chunks). -/
def chunks {α : Type} (bs : Nat) (l : List α) : List (List α) :=
  if bs = 0 then []
  else if l.isEmpty then []
  else l.take bs :: chunks bs (l.drop bs)
termination_by l.length
decreasing_by
  simp only [List.length_drop]
  have hbs : 0 < bs := Nat.pos_of_ne_zero (by assumption)
  have hl : l ≠ [] := by
    intro hc
    simp [hc] at *
  have : 0 < l.length := List.length_pos.mpr hl
  omega

/-- `DeltaBlock` in src/delta.rs: one changed block of the new file. -/
structure DeltaBlock (H : Type) where
  index : Nat
  hash : H
  data : List Nat
deriving Repr, DecidableEq

/-- `DeltaFile` in src/delta.rs. -/
structure DeltaFile (H : Type) where
  original_file_hash : H
  block_size : Nat
  total_blocks : Nat
  changed_blocks : List (DeltaBlock H)
  new_file_size : Nat
deriving Repr, DecidableEq

/-- The byte content read for an optional prior file: a missing file
(`!original_path.exists()` in the code) reads as empty bytes. -/
def prevBytes : Option (List Nat) → List Nat
  | none => []
  | some content => content

/-- `calculate_block_hashes` in src/delta.rs: hash of each 4 KiB chunk. -/
def calculate_block_hashes {H : Type} (h : List Nat → H) (content : List Nat) : List H :=
  (chunks BLOCK_SIZE content).map h

/-- `create_delta` in src/delta.rs.  Block `i` of the new file is recorded as
changed iff `i` is beyond the prior block list or the prior block's hash
differs from the new block's hash. -/
def create_delta {H : Type} [DecidableEq H] (h : List Nat → H) (prev : Option (List Nat))
    (new : List Nat) : DeltaFile H :=
  let original_hashes : List H :=
    match prev with
    | some content => calculate_block_hashes h content
    | none => []
  let newBlocks := chunks BLOCK_SIZE new
  { original_file_hash := h (prevBytes prev)
    block_size := BLOCK_SIZE
    total_blocks := newBlocks.length
    changed_blocks :=
      (newBlocks.enum.filter fun p => decide (¬ original_hashes[p.1]? = some (h p.2))).map
        fun p => { index := p.1, hash := h p.2, data := p.2 }
    new_file_size := new.length }

/-- The block-overwrite loop of `apply_delta` in src/delta.rs: each changed
block replaces the block at its index when that index is in range. -/
def applyChangedBlocks {H : Type} (blocks : List (List Nat)) (cbs : List (DeltaBlock H)) :
    List (List Nat) :=
  cbs.foldl (fun bs cb => if cb.index < bs.length then bs.set cb.index cb.data else bs) blocks

/-- The output-write loop of `apply_delta` in src/delta.rs: concatenate the
blocks, writing from each block at most the bytes remaining up to
`new_file_size`. -/
def writeBlocks (new_file_size : Nat) (blocks : List (List Nat)) : List Nat :=
  blocks.foldl (fun acc b => acc ++ b.take (new_file_size - acc.length)) []

/-- `apply_delta` in src/delta.rs: read the prior blocks, pad with empty
blocks up to `total_blocks`, overwrite the changed blocks, then write out
truncated to `new_file_size` bytes. -/
def apply_delta {H : Type} (prev : Option (List Nat)) (d : DeltaFile H) : List Nat :=
  let blocks := chunks d.block_size (prevBytes prev)
  let blocks := blocks ++ List.replicate (d.total_blocks - blocks.length) []
  writeBlocks d.new_file_size (applyChangedBlocks blocks d.changed_blocks)

/-- `delta_size` in src/delta.rs: total payload bytes over changed blocks. -/
def delta_size {H : Type} (d : DeltaFile H) : Nat :=
  (d.changed_blocks.map fun b => b.data.length).sum

/-! ## Snapshot writer: delta file naming (src/backup/mod.rs) and the restore
side of the naming (src/restore.rs). -/

/-- The index of the last element satisfying `p`, if any (Rust's `rposition`
over a list, and the position of the last `.` for `Path::file_stem`). -/
def lastIdxP {α : Type} (p : α → Bool) : List α → Option Nat
  | [] => none
  | a :: rest =>
    match lastIdxP p rest with
    | some i => some (i + 1)
    | none => if p a then some 0 else none

/-- Rust `Path::file_stem` / `Path::extension` on a file name: split at the
last `.`; a name whose only `.` is leading (or that has none) has no
extension. -/
def rustFileStemExt (f : List Char) : List Char × Option (List Char) :=
  match lastIdxP (fun c => decide (c = '.')) f with
  | some i => if 0 < i then (f.take i, some (f.drop (i + 1))) else (f, none)
  | none => (f, none)

/-- Rust `Path::with_extension` on a file name: drop the current extension,
then append `.` and the new extension when the latter is nonempty. -/
def with_extension (f ext : List Char) : List Char :=
  (rustFileStemExt f).1 ++ (if ext.isEmpty then [] else '.' :: ext)

/-- The `.delta` suffix appended by the writer. -/
def deltaSuffix : List Char := ['.', 'd', 'e', 'l', 't', 'a']

/-- The delta file name computed in src/backup/mod.rs: `with_extension`
applied to the basename, with the new extension being the old extension (or
empty) followed by `.delta`. -/
def delta_backup_file_name (f : List Char) : List Char :=
  with_extension f ((rustFileStemExt f).2.getD [] ++ deltaSuffix)

/-- `strip_delta_extension` in src/restore.rs: strip a trailing `.delta` if
present, otherwise return the name unchanged. -/
def strip_delta_extension (f : List Char) : List Char :=
  if deltaSuffix.isSuffixOf f then f.take (f.length - deltaSuffix.length) else f

/-! ## Snapshot writer: the metadata file-hash pipeline (src/backup/mod.rs,
src/backup/file_ops.rs).  Hash maps are modelled as association lists. -/

/-- Lookup in an association list (HashMap::get). -/
def assocLookup {V : Type} (key : List Char) : List (List Char × V) → Option V
  | [] => none
  | (k, v) :: rest => if k = key then some v else assocLookup key rest

/-- Insert into an association list, replacing the value of an existing key
(HashMap::insert). -/
def assocInsert {V : Type} (key : List Char) (value : V) :
    List (List Char × V) → List (List Char × V)
  | [] => [(key, value)]
  | (k, v) :: rest =>
    if k = key then (key, value) :: rest else (k, v) :: assocInsert key value rest

/-- The metadata `file_hashes` slice of `perform_backup_to_dir` in
src/backup/mod.rs, as a function of the scan results.  `current_hashes` is
the map produced by `collect_files` (relative path to content hash); the
hash recomputed per file by `calculate_file_hash` before the
`metadata.file_hashes.insert` equals that file's entry in `current_hashes`,
so the backed-up files are carried as (path, hash) pairs.  Returns `none`
when the run ends in the early "no changes" return (metadata.json is not
written), otherwise the `file_hashes` map that gets persisted.  Faithful to
mod.rs, backed-up files only ever insert; no key is ever removed. -/
def perform_backup_file_hashes (last_full_backup : Option Nat)
    (file_hashes current_hashes : List (List Char × List Char)) (force_full : Bool) :
    Option (List (List Char × List Char)) :=
  let scanIsFull := last_full_backup.isNone
  let changed := current_hashes.filter fun pc =>
    decide (¬ assocLookup pc.1 file_hashes = some pc.2)
  let isFull := scanIsFull || force_full
  let files_to_backup := if isFull then current_hashes else changed
  if ¬ isFull && files_to_backup.isEmpty then none
  else some (files_to_backup.foldl (fun m pc => assocInsert pc.1 pc.2 m) file_hashes)

/-! ## Snapshot writer: the per-file incremental action in delta mode
(src/backup/mod.rs lines 196-226). -/

/-- How an incremental-mode file ends up stored, with the bytes accounted to
`bytes_processed`. -/
inductive IncFileAction where
  | storedDelta (payload : Nat)
  | literalCopy (size : Nat)
deriving Repr, DecidableEq

/-- The delta branch of `perform_backup_to_dir` in src/backup/mod.rs: when a
prior version of the file exists in some snapshot, a delta is created and
saved unconditionally (there is no payload-size threshold in mod.rs);
without a prior version the file is copied literally. -/
def incremental_delta_action {H : Type} [DecidableEq H] (h : List Nat → H)
    (prev : Option (List Nat)) (newContent : List Nat) : IncFileAction :=
  match prev with
  | some prevContent =>
    IncFileAction.storedDelta (delta_size (create_delta h (some prevContent) newContent))
  | none => IncFileAction.literalCopy newContent.length

/-! ## Scanner exclusion patterns (`should_exclude` in src/backup/file_ops.rs). -/

/-- Rust `str::split('*')`: the fragments between `*` occurrences (a string
with `n` stars yields `n + 1` fragments, possibly empty). -/
def splitStar : List Char → List (List Char)
  | [] => [[]]
  | c :: rest =>
    if c = '*' then [] :: splitStar rest
    else
      match splitStar rest with
      | [] => [[c]]
      | h :: t => (c :: h) :: t

/-- One iteration of the pattern loop in `should_exclude`
(src/backup/file_ops.rs): a pattern containing `*` matches only when it
splits into exactly two fragments that are a prefix and a suffix of the
path; a star-free pattern matches as a substring. -/
def pattern_matches (path pattern : List Char) : Bool :=
  if pattern.contains '*' then
    match splitStar pattern with
    | [p0, p1] => p0.isPrefixOf path && p1.isSuffixOf path
    | _ => false
  else decide (pattern <:+: path)

/-- `should_exclude` in src/backup/file_ops.rs. -/
def should_exclude (path : List Char) (patterns : List (List Char)) : Bool :=
  patterns.any fun pattern => pattern_matches path pattern

/-! ## Retention (`cleanup_old_backups` in src/backup/file_ops.rs).
Snapshot directories are carried as their names, listed in ascending
filesystem-mtime order (the order the function sorts them into). -/

/-- `name.starts_with("full_")`. -/
def startsWithFull (name : List Char) : Bool :=
  List.isPrefixOf ['f', 'u', 'l', 'l', '_'] name

/-- `name.starts_with("inc_")`. -/
def startsWithInc (name : List Char) : Bool :=
  List.isPrefixOf ['i', 'n', 'c', '_'] name

/-- `rposition` of the latest `full_` snapshot in the mtime-ascending list. -/
def lastFullIdx (backups : List (List Char)) : Option Nat :=
  lastIdxP startsWithFull backups

/-- `protect_count` in `cleanup_old_backups`: the latest full and everything
after it; everything when no full exists. -/
def protected_count (backups : List (List Char)) : Nat :=
  match lastFullIdx backups with
  | some idx => backups.length - idx
  | none => backups.length

/-- `cleanup_old_backups` in src/backup/file_ops.rs, returning the retained
(mtime-ascending) list.  Deletion takes the first `len - keep_count`
entries, i.e. the oldest end. -/
def cleanup_old_backups (backups : List (List Char)) (max_backups : Nat) (isDelta : Bool) :
    List (List Char) :=
  if backups.length ≤ max_backups then backups
  else
    let keep_count :=
      if isDelta then max max_backups (protected_count backups) else max_backups
    if backups.length ≤ keep_count then backups
    else backups.drop (backups.length - keep_count)

/-! ## Chain manager: auto-full interval (src/config.rs,
src/backup/validation.rs).  Snapshot directory names are carried as
`List Char` with the lexicographic order (Rust compares the `OsString`
names). -/

/-- `auto_full_backup_interval` in src/config.rs. -/
def auto_full_backup_interval (max_backups : Nat) : Nat :=
  if max_backups ≤ 1 then 1 else max_backups - 1

/-- The counting loop of `count_inc_since_last_full`
(src/backup/validation.rs) over the name-descending list: count `inc_`
entries until the first `full_` entry. -/
def count_inc_pre : List (List Char) → Nat
  | [] => 0
  | name :: rest =>
    if startsWithFull name then 0
    else (if startsWithInc name then 1 else 0) + count_inc_pre rest

/-- `entries.sort_by_key(Reverse(file_name))` in src/backup/validation.rs:
stable sort by name, descending. -/
def sortNamesDesc (names : List (List Char)) : List (List Char) :=
  List.insertionSort (fun a b : List Char => b ≤ a) names

instance : IsTotal (List Char) (fun a b : List Char => b ≤ a) where
  total a b := le_total b a

instance : IsTrans (List Char) (fun a b : List Char => b ≤ a) where
  trans _ _ _ hab hbc := le_trans hbc hab

/-- `count_inc_since_last_full` in src/backup/validation.rs, over the list
of `full_`/`inc_` snapshot directory names. -/
def count_inc_since_last_full (names : List (List Char)) : Nat :=
  count_inc_pre (sortNamesDesc names)

/-- The interval condition of `validate_all_sources`
(src/backup/validation.rs): in Delta mode the per-repository force-full
flag is set when `count_inc_since_last_full ≥ auto_full_backup_interval
(max_backups)` (the resolved `full_backup_interval`, src/config.rs). -/
def should_force_full_interval (names : List (List Char)) (max_backups : Nat) : Bool :=
  decide (auto_full_backup_interval max_backups ≤ count_inc_since_last_full names)

/-! ## Repository metadata store (src/backup/metadata.rs, src/config.rs).
`DateTime<Utc>` values are modelled as `Nat` (only their order matters). -/

/-- `BackupHistoryType` in src/config.rs. -/
inductive BackupHistoryType where
  | full
  | incremental
deriving Repr, DecidableEq

/-- `BackupHistoryEntry` in src/config.rs. -/
structure BackupHistoryEntry where
  backup_name : List Char
  backup_type : BackupHistoryType
  created_at : Nat
  files_backed_up : Nat
  bytes_processed : Nat
deriving Repr, DecidableEq

/-- `SourceMetadata` in src/config.rs. -/
structure SourceMetadata where
  last_full_backup : Option Nat
  last_backup : Option Nat
  file_hashes : List (List Char × List Char)
  backup_history : List BackupHistoryEntry
deriving Repr, DecidableEq

/-- The history comparator used throughout src/backup/metadata.rs:
`created_at` ascending, ties broken by `backup_name`. -/
def histLe (a b : BackupHistoryEntry) : Prop :=
  a.created_at < b.created_at ∨ (a.created_at = b.created_at ∧ a.backup_name ≤ b.backup_name)

instance : DecidableRel histLe := fun a b =>
  inferInstanceAs
    (Decidable (a.created_at < b.created_at
      ∨ (a.created_at = b.created_at ∧ a.backup_name ≤ b.backup_name)))

instance : IsTotal BackupHistoryEntry histLe where
  total a b := by
    unfold histLe
    rcases Nat.lt_trichotomy a.created_at b.created_at with hlt | heq | hgt
    · exact Or.inl (Or.inl hlt)
    · rcases le_total a.backup_name b.backup_name with hn | hn
      · exact Or.inl (Or.inr ⟨heq, hn⟩)
      · exact Or.inr (Or.inr ⟨heq.symm, hn⟩)
    · exact Or.inr (Or.inl hgt)

instance : IsTrans BackupHistoryEntry histLe where
  trans a b c hab hbc := by
    unfold histLe at *
    rcases hab with hab | ⟨hab, hab2⟩ <;> rcases hbc with hbc | ⟨hbc, hbc2⟩
    · exact Or.inl (hab.trans hbc)
    · exact Or.inl (hbc ▸ hab)
    · exact Or.inl (hab ▸ hbc)
    · exact Or.inr ⟨hab.trans hbc, hab2.trans hbc2⟩

/-- The `sort_by` of `backup_history` in src/backup/metadata.rs (stable sort
by `(created_at, backup_name)`). -/
def sort_backup_history (history : List BackupHistoryEntry) : List BackupHistoryEntry :=
  List.insertionSort histLe history

/-- `matches!(entry.backup_type, BackupHistoryType::Full)`. -/
def isFullEntry (e : BackupHistoryEntry) : Bool :=
  decide (e.backup_type = BackupHistoryType.full)

/-- `refresh_metadata_markers` in src/backup/metadata.rs: sort the history,
set `last_backup` to the last entry's `created_at` and `last_full_backup`
to the `created_at` of the last full entry found scanning from the end. -/
def refresh_metadata_markers (m : SourceMetadata) : SourceMetadata :=
  let sorted := sort_backup_history m.backup_history
  { m with
    backup_history := sorted
    last_backup := sorted.getLast?.map fun e => e.created_at
    last_full_backup := (sorted.reverse.find? isFullEntry).map fun e => e.created_at }

/-- `synchronize_metadata_history_with_disk` in src/backup/metadata.rs:
replace `backup_history` by the history rebuilt from the on-disk snapshot
directories, then refresh the markers.  The disk scan
(`scan_backup_entries_from_disk` + `build_history_from_entries`, which
recomputes per-snapshot file counts and byte sizes) is carried as the
rebuilt entry list `disk`. -/
def synchronize_metadata_history_with_disk (disk : List BackupHistoryEntry)
    (m : SourceMetadata) : SourceMetadata :=
  refresh_metadata_markers { m with backup_history := disk }

/-- `append_backup_history_entry` in src/backup/metadata.rs: drop any prior
entry with the same name, push the new entry, then refresh the markers. -/
def append_backup_history_entry (m : SourceMetadata) (backup_name : List Char)
    (backup_type : BackupHistoryType) (created_at files_backed_up bytes_processed : Nat) :
    SourceMetadata :=
  refresh_metadata_markers
    { m with
      backup_history :=
        (m.backup_history.filter fun e => decide (¬ e.backup_name = backup_name)) ++
          [{ backup_name := backup_name, backup_type := backup_type, created_at := created_at,
             files_backed_up := files_backed_up, bytes_processed := bytes_processed }] }

/-- The per-entry field comparison of `validate_backup_metadata_history`
(src/backup/metadata.rs): name, kind, files, bytes at equal indices. -/
def entryFieldsMatch (a b : BackupHistoryEntry) : Bool :=
  decide (a.backup_name = b.backup_name) && decide (a.backup_type = b.backup_type)
    && decide (a.files_backed_up = b.files_backed_up)
    && decide (a.bytes_processed = b.bytes_processed)

/-- The `seen_full` loop of `validate_backup_metadata_history`: an
incremental entry before any full entry is an error. -/
def checkNoIncBeforeFull : Bool → List BackupHistoryEntry → Bool
  | _, [] => true
  | seen_full, e :: rest =>
    match e.backup_type with
    | BackupHistoryType.full => checkNoIncBeforeFull true rest
    | BackupHistoryType.incremental =>
      if seen_full then checkNoIncBeforeFull seen_full rest else false

/-- `validate_backup_metadata_history` in src/backup/metadata.rs, as a
validity predicate (`true` = `Ok`).  `disk` is the entry list rebuilt from
the on-disk snapshot directories (sorted by the scan, with files/bytes
recomputed from disk); `meta` is the parsed metadata.json, `none` when the
file does not exist. -/
def validate_backup_metadata_history (disk : List BackupHistoryEntry)
    (meta : Option SourceMetadata) : Bool :=
  if disk.isEmpty then true
  else
    match meta with
    | none => false
    | some m =>
      if m.backup_history.isEmpty then false
      else
        let metadata_history := sort_backup_history m.backup_history
        if ¬ metadata_history.length = disk.length then false
        else if ¬ ((metadata_history.zip disk).all fun p => entryFieldsMatch p.1 p.2) then false
        else if ¬ checkNoIncBeforeFull false metadata_history then false
        else
          decide (m.last_full_backup
              = ((metadata_history.reverse.find? isFullEntry).map fun e => e.created_at))
            && decide (m.last_backup = (metadata_history.getLast?.map fun e => e.created_at))

/-! ## Restore planner (src/restore.rs). -/

/-- `BackupEntry` in src/restore.rs (the path field is omitted: it is the
repository joined with the name). -/
structure BackupEntry where
  name : List Char
  is_full : Bool
  timestamp : List Char
deriving Repr, DecidableEq

/-- The default cutoff `"99999999_999999"` used when no restore point is
given. -/
def MAX_RESTORE_CUTOFF : List Char :=
  ['9', '9', '9', '9', '9', '9', '9', '9', '_', '9', '9', '9', '9', '9', '9']

/-- `select_backups` in src/restore.rs: `rfind` the last full entry with
timestamp at most the cutoff (`None` is the hard error), then append every
non-full entry with timestamp strictly greater than the full's and at most
the cutoff, in the order of `backups`. -/
def select_backups (backups : List BackupEntry) (restore_point : Option (List Char)) :
    Option (List BackupEntry) :=
  let cutoff := restore_point.getD MAX_RESTORE_CUTOFF
  match backups.reverse.find? (fun b => b.is_full && decide (b.timestamp ≤ cutoff)) with
  | none => none
  | some full_backup =>
    some (full_backup ::
      backups.filter fun b =>
        !b.is_full && decide (full_backup.timestamp < b.timestamp)
          && decide (b.timestamp ≤ cutoff))

/-! ## Theorems -/

theorem splitStar_ne_nil (l : List Char) : splitStar l ≠ [] := by
  match l with
  | [] => simp [splitStar]
  | c :: rest =>
    rw [splitStar]
    by_cases hc : c = '*'
    · simp [hc]
    · simp only [hc, if_false]
      rcases h : splitStar rest with _ | ⟨h0, t⟩ <;> simp

theorem length_splitStar (l : List Char) : (splitStar l).length = l.count '*' + 1 := by
  induction l with
  | nil => simp [splitStar]
  | cons c rest ih =>
    rw [splitStar]
    by_cases hc : c = '*'
    · simp [hc, List.count_cons, ih]
    · simp only [hc, if_false]
      rcases h : splitStar rest with _ | ⟨h0, t⟩
      · exact absurd h (splitStar_ne_nil rest)
      · have := ih
        rw [h] at this
        simp only [List.length_cons] at this ⊢
        simp [List.count_cons, hc]
        omega

/-- C10: an exclude pattern containing two or more `*` characters matches no
path: its split has at least three fragments, so the two-fragment glob
branch fails, and the substring branch is never reached for a pattern
containing `*`. -/
theorem multi_star_pattern_excludes_nothing (pattern : List Char)
    (hstars : 2 ≤ pattern.count '*') :
    (∀ path, pattern_matches path pattern = false)
    ∧ (∀ path, should_exclude path [pattern] = false) := by
  have hmem : '*' ∈ pattern := List.count_pos_iff.mp (by omega)
  have hcont : pattern.contains '*' = true := List.elem_iff.mpr hmem
  have hlen : (splitStar pattern).length = pattern.count '*' + 1 := length_splitStar pattern
  have hmatch : ∀ path, pattern_matches path pattern = false := by
    intro path
    rw [pattern_matches, if_pos hcont]
    rcases hsp : splitStar pattern with _ | ⟨p0, _ | ⟨p1, _ | ⟨p2, t⟩⟩⟩
    · rfl
    · rfl
    · rw [hsp] at hlen
      simp only [List.length_cons, List.length_nil] at hlen
      omega
    · rfl
  refine ⟨hmatch, fun path => ?_⟩
  simp [should_exclude, hmatch path]

/-- Witness for C10 at the concrete pattern `**` and path `a`. -/
theorem multi_star_pattern_excludes_nothing_witness :
    2 ≤ (['*', '*'] : List Char).count '*'
      ∧ pattern_matches ['a'] ['*', '*'] = false
      ∧ should_exclude ['a'] [['*', '*']] = false :=
  ⟨by decide, (multi_star_pattern_excludes_nothing ['*', '*'] (by decide)).1 ['a'],
    (multi_star_pattern_excludes_nothing ['*', '*'] (by decide)).2 ['a']⟩

theorem lastIdxP_getElem? {α : Type} (p : α → Bool) (l : List α) (i : Nat)
    (h : lastIdxP p l = some i) : ∃ a, l[i]? = some a ∧ p a = true := by
  induction l generalizing i with
  | nil => simp [lastIdxP] at h
  | cons a rest ih =>
    rw [lastIdxP] at h
    rcases hr : lastIdxP p rest with _ | j <;> rw [hr] at h
    · by_cases hp : p a
      · rw [if_pos hp] at h
        obtain rfl : i = 0 := by simpa using h.symm
        exact ⟨a, by simp, hp⟩
      · rw [if_neg hp] at h
        simp at h
    · obtain rfl : i = j + 1 := by simpa using h.symm
      obtain ⟨b, hb, hpb⟩ := ih j hr
      exact ⟨b, by simpa using hb, hpb⟩

/-- C4 (amended): for every basename that has an extension in Rust's sense
(a `.` at some index greater than 0), the delta file name is the basename
with the literal suffix `.delta` appended, and `strip_delta_extension`
recovers exactly the basename.  (For an extensionless basename the writer
produces `name..delta` instead; see the counterexample.) -/
theorem delta_backup_file_name_roundtrip (f e : List Char)
    (he : (rustFileStemExt f).2 = some e) :
    delta_backup_file_name f = f ++ deltaSuffix
    ∧ strip_delta_extension (delta_backup_file_name f) = f := by
  rcases hL : lastIdxP (fun c => decide (c = '.')) f with _ | i
  · rw [rustFileStemExt, hL] at he
    simp at he
  · have hfse : rustFileStemExt f
        = if 0 < i then (f.take i, some (f.drop (i + 1))) else (f, none) := by
      rw [rustFileStemExt, hL]
    by_cases hi : 0 < i
    · have hee : e = f.drop (i + 1) := by
        have h2 := he
        rw [hfse, if_pos hi] at h2
        simpa using h2.symm
      obtain ⟨c, hc, hcp⟩ := lastIdxP_getElem? _ f i hL
      have hdot : c = '.' := by simpa using hcp
      subst hdot
      obtain ⟨hlt, hgetel⟩ := List.getElem?_eq_some.mp hc
      have hsplit : f.take i ++ '.' :: f.drop (i + 1) = f := by
        have hcd := List.getElem_cons_drop f i hlt
        rw [hgetel] at hcd
        rw [hcd]
        exact List.take_append_drop i f
      have hstem : (rustFileStemExt f).1 = f.take i := by
        rw [hfse, if_pos hi]
      have hname : delta_backup_file_name f = f ++ deltaSuffix := by
        rw [delta_backup_file_name, he, with_extension, hstem]
        have hne : (e ++ deltaSuffix).isEmpty = false := by
          rcases e <;> simp [deltaSuffix]
        simp only [Option.getD_some]
        rw [hne]
        simp only [Bool.false_eq_true, if_false, hee]
        conv_rhs => rw [← hsplit]
        simp [deltaSuffix]
      refine ⟨hname, ?_⟩
      rw [hname, strip_delta_extension]
      have hsuf : deltaSuffix.isSuffixOf (f ++ deltaSuffix) = true :=
        List.isSuffixOf_iff_suffix.mpr (List.suffix_append f deltaSuffix)
      rw [if_pos hsuf]
      have hlen : (f ++ deltaSuffix).length - deltaSuffix.length = f.length := by
        simp
      rw [hlen]
      exact List.take_left f deltaSuffix
    · rw [hfse, if_neg hi] at he
      simp at he

/-- C4 counterexample: for the extensionless basename `x` the writer emits
`x..delta` (Rust's `with_extension` inserts its own dot), not `x.delta`, and
stripping `.delta` yields `x.` rather than `x`. -/
theorem delta_backup_file_name_counterexample :
    ¬ (delta_backup_file_name ['x'] = ['x'] ++ deltaSuffix
        ∧ strip_delta_extension (delta_backup_file_name ['x']) = ['x']) := by
  decide

/-- Witness for C4 at the concrete basename `x.bin`. -/
theorem delta_backup_file_name_roundtrip_witness :
    (rustFileStemExt ['x', '.', 'b', 'i', 'n']).2 = some ['b', 'i', 'n']
      ∧ delta_backup_file_name ['x', '.', 'b', 'i', 'n']
          = ['x', '.', 'b', 'i', 'n'] ++ deltaSuffix
      ∧ strip_delta_extension (delta_backup_file_name ['x', '.', 'b', 'i', 'n'])
          = ['x', '.', 'b', 'i', 'n'] :=
  ⟨by decide, (delta_backup_file_name_roundtrip _ ['b', 'i', 'n'] (by decide)).1,
    (delta_backup_file_name_roundtrip _ ['b', 'i', 'n'] (by decide)).2⟩

/-- C2 (evaluation of the code at the failing input): with a prior full
backup recorded and stored hashes for `k` and `r`, but only `k` (unchanged)
still present in the source, the writer returns without writing
metadata.json at all (first conjunct), so the stale `r` entry survives on
disk; and even a run where `k` changed persists a `file_hashes` map that
still contains the deleted file `r` (second conjunct) — the writer never
removes keys absent from `current_hashes`. -/
theorem perform_backup_keeps_stale_file_hash :
    perform_backup_file_hashes (some 0) [(['k'], ['1']), (['r'], ['2'])] [(['k'], ['1'])] false
        = none
    ∧ (perform_backup_file_hashes (some 0) [(['k'], ['1']), (['r'], ['2'])] [(['k'], ['3'])]
          false).map (fun m => assocLookup ['r'] m) = some (some ['2']) := by
  decide

/-- C3 (evaluation of the code at the failing input): in delta mode with a
prior version present, `perform_backup_to_dir` stores a delta
unconditionally.  For a 1-byte file whose single block changed the payload
is 1 byte — 100% of the new file size, well over the 50% threshold the
specification requires — yet the action is still `storedDelta`. -/
theorem incremental_delta_action_ignores_size_threshold :
    incremental_delta_action (fun l : List Nat => l) (some [0]) [1]
        = IncFileAction.storedDelta 1
    ∧ 2 * delta_size (create_delta (fun l : List Nat => l) (some [0]) [1])
        > ([1] : List Nat).length := by
  have hc0 : chunks BLOCK_SIZE [(0 : Nat)] = [[0]] := by simp [chunks, BLOCK_SIZE]
  have hc1 : chunks BLOCK_SIZE [(1 : Nat)] = [[1]] := by simp [chunks, BLOCK_SIZE]
  have hd : delta_size (create_delta (fun l : List Nat => l) (some [0]) [1]) = 1 := by
    simp only [create_delta, calculate_block_hashes, prevBytes, hc0, hc1]
    decide
  constructor
  · rw [incremental_delta_action, hd]
  · rw [hd]
    decide

/-- C8 counterexample: with zero on-disk snapshot directories while
metadata.json lists one history entry, `validate_backup_metadata_history`
succeeds — it returns Ok before any count comparison — although the entry
counts (1 vs 0) differ. -/
theorem validate_backup_metadata_history_counterexample :
    validate_backup_metadata_history []
        (some { last_full_backup := none, last_backup := none, file_hashes := [],
                backup_history := [{ backup_name := ['a'],
                                     backup_type := BackupHistoryType.full, created_at := 0,
                                     files_backed_up := 0, bytes_processed := 0 }] }) = true
    ∧ ([{ backup_name := ['a'], backup_type := BackupHistoryType.full, created_at := 0,
          files_backed_up := 0, bytes_processed := 0 }] : List BackupHistoryEntry).length
        ≠ ([] : List BackupHistoryEntry).length := by
  decide

/-- C8 (amended): metadata validation fails whenever snapshot directories
exist on disk and the history count differs from the on-disk count —
including a missing metadata.json — but with no on-disk snapshot
directories it succeeds regardless of what metadata.json lists. -/
theorem validate_backup_metadata_history_count_spec :
    (∀ disk : List BackupHistoryEntry, disk ≠ [] →
        validate_backup_metadata_history disk none = false)
    ∧ (∀ (disk : List BackupHistoryEntry) (m : SourceMetadata), disk ≠ [] →
        ¬ m.backup_history.length = disk.length →
        validate_backup_metadata_history disk (some m) = false)
    ∧ (∀ meta, validate_backup_metadata_history [] meta = true) := by
  refine ⟨fun disk hd => ?_, fun disk m hd hlen => ?_, fun meta => ?_⟩
  · rw [validate_backup_metadata_history.eq_def, if_neg (by simpa using hd)]
  · rw [validate_backup_metadata_history.eq_def, if_neg (by simpa using hd)]
    simp only
    by_cases hemp : m.backup_history.isEmpty
    · rw [if_pos hemp]
    · rw [if_neg hemp]
      have hsl : (sort_backup_history m.backup_history).length = m.backup_history.length :=
        List.length_insertionSort _ _
      rw [if_pos (by rw [hsl]; exact hlen)]
  · rw [validate_backup_metadata_history.eq_def, if_pos (by simp)]

/-- Witness for C8's amended theorem at concrete inputs: one on-disk
snapshot with empty metadata history, a missing metadata.json, and an empty
disk. -/
theorem validate_backup_metadata_history_count_spec_witness :
    validate_backup_metadata_history
        [{ backup_name := ['a'], backup_type := BackupHistoryType.full, created_at := 0,
           files_backed_up := 0, bytes_processed := 0 }]
        (some { last_full_backup := none, last_backup := none, file_hashes := [],
                backup_history := [] }) = false
    ∧ validate_backup_metadata_history
        [{ backup_name := ['a'], backup_type := BackupHistoryType.full, created_at := 0,
           files_backed_up := 0, bytes_processed := 0 }] none = false
    ∧ validate_backup_metadata_history [] none = true :=
  ⟨validate_backup_metadata_history_count_spec.2.1 _ _ (by decide) (by decide),
    validate_backup_metadata_history_count_spec.1 _ (by decide),
    validate_backup_metadata_history_count_spec.2.2 none⟩

theorem lastIdxP_lt {α : Type} (p : α → Bool) (l : List α) (i : Nat)
    (h : lastIdxP p l = some i) : i < l.length := by
  obtain ⟨a, ha, -⟩ := lastIdxP_getElem? p l i h
  exact (List.getElem?_eq_some.mp ha).1

/-- C6 counterexample: in Delta mode with `max_backups = 2 > 0` and a single
`full_` snapshot, retention keeps 1 snapshot, not
`max(max_backups, protected) = 2` as the claim states. -/
theorem cleanup_old_backups_counterexample :
    (cleanup_old_backups [['f', 'u', 'l', 'l', '_', 'a']] 2 true).length
        ≠ max 2 (protected_count [['f', 'u', 'l', 'l', '_', 'a']])
    ∧ 0 < 2 := by
  decide

/-- C6 (amended): in Delta mode retention keeps the newest
`min(count, max(max_backups, protected))` snapshots — equal to
`max(max_backups, protected)` whenever `count > max_backups`, and to
`count` (nothing deleted) otherwise — deleting only from the oldest end
(the result is a suffix of the mtime-ascending list); consequently the
latest `full_` snapshot is never deleted while anything after it (in
particular any `inc_`) is retained. -/
theorem cleanup_old_backups_delta_spec (backups : List (List Char)) (max_backups : Nat) :
    (cleanup_old_backups backups max_backups true).length
        = min backups.length (max max_backups (protected_count backups))
    ∧ cleanup_old_backups backups max_backups true <:+ backups
    ∧ (∀ i, lastFullIdx backups = some i →
        backups.length - (cleanup_old_backups backups max_backups true).length ≤ i) := by
  have hple : protected_count backups ≤ backups.length := by
    rw [protected_count]
    rcases lastFullIdx backups with _ | i <;> simp
  rw [cleanup_old_backups]
  by_cases h1 : backups.length ≤ max_backups
  · rw [if_pos h1]
    refine ⟨by omega, List.suffix_rfl, fun i hi => by omega⟩
  · rw [if_neg h1]
    simp only [if_true]
    by_cases h2 : backups.length ≤ max max_backups (protected_count backups)
    · rw [if_pos h2]
      refine ⟨by omega, List.suffix_rfl, fun i hi => by omega⟩
    · rw [if_neg h2]
      have hlen : (backups.drop
            (backups.length - max max_backups (protected_count backups))).length
          = max max_backups (protected_count backups) := by
        rw [List.length_drop]
        omega
      refine ⟨by rw [hlen]; omega, List.drop_suffix _ _, fun i hi => ?_⟩
      have hic : i < backups.length := lastIdxP_lt _ _ _ hi
      have hpc : protected_count backups = backups.length - i := by
        rw [protected_count, lastFullIdx] at *
        rw [hi]
      rw [hlen]
      omega

/-- Witness for C6's amended theorem on a concrete repository:
`[full_a, inc_b, inc_c]` with `max_backups = 2` keeps all three snapshots
(the protected chain exceeds `max_backups`), and the latest full at index 0
survives. -/
theorem cleanup_old_backups_delta_spec_witness :
    (cleanup_old_backups
          [['f', 'u', 'l', 'l', '_', 'a'], ['i', 'n', 'c', '_', 'b'], ['i', 'n', 'c', '_', 'c']]
          2 true).length
        = min ([['f', 'u', 'l', 'l', '_', 'a'], ['i', 'n', 'c', '_', 'b'],
              ['i', 'n', 'c', '_', 'c']] : List (List Char)).length
            (max 2 (protected_count
              [['f', 'u', 'l', 'l', '_', 'a'], ['i', 'n', 'c', '_', 'b'],
                ['i', 'n', 'c', '_', 'c']]))
    ∧ (([['f', 'u', 'l', 'l', '_', 'a'], ['i', 'n', 'c', '_', 'b'],
            ['i', 'n', 'c', '_', 'c']] : List (List Char)).length
          - (cleanup_old_backups
              [['f', 'u', 'l', 'l', '_', 'a'], ['i', 'n', 'c', '_', 'b'],
                ['i', 'n', 'c', '_', 'c']] 2 true).length ≤ 0) :=
  ⟨(cleanup_old_backups_delta_spec
      [['f', 'u', 'l', 'l', '_', 'a'], ['i', 'n', 'c', '_', 'b'], ['i', 'n', 'c', '_', 'c']]
      2).1,
    (cleanup_old_backups_delta_spec
      [['f', 'u', 'l', 'l', '_', 'a'], ['i', 'n', 'c', '_', 'b'], ['i', 'n', 'c', '_', 'c']]
      2).2.2 0 (by decide)⟩

theorem find?_reverse_eq_getLast?_filter {α : Type} (p : α → Bool) (l : List α) :
    l.reverse.find? p = (l.filter p).getLast? := by
  induction l using List.reverseRecOn with
  | nil => rfl
  | append_singleton l a ih =>
    rw [List.reverse_append]
    simp only [List.reverse_cons, List.reverse_nil, List.nil_append, List.singleton_append]
    by_cases hpa : p a
    · rw [List.find?_cons_of_pos _ hpa, List.filter_append]
      simp [List.filter_cons, hpa, List.getLast?_concat]
    · rw [List.find?_cons_of_neg _ hpa, ih, List.filter_append]
      simp [List.filter_cons, hpa]

theorem refresh_metadata_markers_invariant (m : SourceMetadata) :
    (refresh_metadata_markers m).backup_history.Pairwise histLe
    ∧ (refresh_metadata_markers m).last_backup
        = (refresh_metadata_markers m).backup_history.getLast?.map (fun e => e.created_at)
    ∧ (refresh_metadata_markers m).last_full_backup
        = ((refresh_metadata_markers m).backup_history.filter isFullEntry).getLast?.map
            (fun e => e.created_at) := by
  refine ⟨List.sorted_insertionSort histLe _, rfl, ?_⟩
  show ((sort_backup_history m.backup_history).reverse.find? isFullEntry).map _ = _
  rw [find?_reverse_eq_getLast?_filter]
  rfl

/-- C9: after `synchronize_metadata_history_with_disk` and after
`append_backup_history_entry`, `backup_history` is sorted by `created_at`
with ties broken by `backup_name` lexical order, `last_backup` equals the
`created_at` of the last history entry (absent when history is empty), and
`last_full_backup` equals the `created_at` of the last history entry whose
kind is full (absent if none). -/
theorem metadata_markers_invariant_after_sync_and_append (m : SourceMetadata)
    (disk : List BackupHistoryEntry) (backup_name : List Char)
    (backup_type : BackupHistoryType) (created_at files_backed_up bytes_processed : Nat) :
    ((synchronize_metadata_history_with_disk disk m).backup_history.Pairwise histLe
      ∧ (synchronize_metadata_history_with_disk disk m).last_backup
          = (synchronize_metadata_history_with_disk disk m).backup_history.getLast?.map
              (fun e => e.created_at)
      ∧ (synchronize_metadata_history_with_disk disk m).last_full_backup
          = ((synchronize_metadata_history_with_disk disk m).backup_history.filter
              isFullEntry).getLast?.map (fun e => e.created_at))
    ∧ ((append_backup_history_entry m backup_name backup_type created_at files_backed_up
          bytes_processed).backup_history.Pairwise histLe
      ∧ (append_backup_history_entry m backup_name backup_type created_at files_backed_up
          bytes_processed).last_backup
          = (append_backup_history_entry m backup_name backup_type created_at files_backed_up
              bytes_processed).backup_history.getLast?.map (fun e => e.created_at)
      ∧ (append_backup_history_entry m backup_name backup_type created_at files_backed_up
          bytes_processed).last_full_backup
          = ((append_backup_history_entry m backup_name backup_type created_at files_backed_up
              bytes_processed).backup_history.filter isFullEntry).getLast?.map
              (fun e => e.created_at)) :=
  ⟨refresh_metadata_markers_invariant _, refresh_metadata_markers_invariant _⟩

theorem full_ne_inc {u s : List Char} (hf : startsWithFull u = true)
    (hi : startsWithInc s = true) : u ≠ s := by
  rw [startsWithFull, List.isPrefixOf_iff_prefix] at hf
  rw [startsWithInc, List.isPrefixOf_iff_prefix] at hi
  obtain ⟨u1, hu1⟩ := hf
  obtain ⟨u2, hu2⟩ := hi
  intro heq
  rw [heq] at hu1
  have hcontra := hu1.trans hu2.symm
  simp only [List.cons_append, List.cons.injEq] at hcontra
  exact absurd hcontra.1 (by decide)

theorem count_inc_pre_sorted (l : List (List Char))
    (hsort : l.Pairwise fun a b : List Char => b ≤ a)
    (hall : ∀ s ∈ l, startsWithFull s = true ∨ startsWithInc s = true) :
    count_inc_pre l
      = l.countP fun s => startsWithInc s
          && l.all fun t => !startsWithFull t || decide (t < s) := by
  induction l with
  | nil => simp [count_inc_pre]
  | cons s t ih =>
    obtain ⟨hs, ht⟩ := List.pairwise_cons.mp hsort
    by_cases hfs : startsWithFull s = true
    · rw [count_inc_pre, if_pos hfs]
      symm
      rw [List.countP_eq_zero]
      intro x hx hpx
      have hpx2 : startsWithInc x = true
          ∧ ((s :: t).all fun u => !startsWithFull u || decide (u < x)) = true := by
        simpa using hpx
      have hall2 := hpx2.2
      rw [List.all_eq_true] at hall2
      have hats := hall2 s (List.mem_cons_self ..)
      rw [hfs] at hats
      simp only [Bool.not_true, Bool.false_or, decide_eq_true_eq] at hats
      have hxle : x ≤ s := by
        rcases List.mem_cons.mp hx with rfl | hx'
        · exact le_refl x
        · exact hs x hx'
      exact absurd hats (not_lt.mpr hxle)
    · have hfs' : startsWithFull s = false := by simpa using hfs
      have his : startsWithInc s = true := by
        rcases hall s (List.mem_cons_self ..) with h | h
        · exact absurd h hfs
        · exact h
      rw [count_inc_pre, if_neg hfs, his, List.countP_cons]
      have hps : (startsWithInc s
          && (s :: t).all fun u => !startsWithFull u || decide (u < s)) = true := by
        rw [Bool.and_eq_true]
        refine ⟨his, ?_⟩
        rw [List.all_eq_true]
        intro u hu
        rcases List.mem_cons.mp hu with rfl | hu'
        · simp [hfs']
        · by_cases hfu : startsWithFull u = true
          · have hne : u ≠ s := full_ne_inc hfu his
            have hlt : u < s := lt_of_le_of_ne (hs u hu') hne
            simp [hlt]
          · simp [(by simpa using hfu : startsWithFull u = false)]
      have hcongr : (List.countP
            (fun x => startsWithInc x
              && (s :: t).all fun u => !startsWithFull u || decide (u < x)) t)
          = List.countP
              (fun x => startsWithInc x
                && t.all fun u => !startsWithFull u || decide (u < x)) t := by
        apply List.countP_congr
        intro x _
        simp [List.all_cons, hfs']
      rw [hps, hcongr, ih ht fun x hx => hall x (List.mem_cons_of_mem s hx)]
      simp [Nat.add_comm]

/-- C7: `auto_full_backup_interval` equals `max(1, n-1)`;
`count_inc_since_last_full` counts exactly the `inc_` snapshots whose name
(timestamp) is lexically greater than every `full_` snapshot's name, i.e.
the incrementals newer than the most recent full; the startup validation
forces a full whenever that count reaches the interval; and concretely,
with `max_backups = 3` the interval is 2, so after `full, inc, inc` the
next run is forced full. -/
theorem count_inc_since_last_full_spec :
    (∀ n, auto_full_backup_interval n = max 1 (n - 1))
    ∧ (∀ names : List (List Char),
        (∀ s ∈ names, startsWithFull s = true ∨ startsWithInc s = true) →
        count_inc_since_last_full names
          = names.countP fun s => startsWithInc s
              && names.all fun t => !startsWithFull t || decide (t < s))
    ∧ (∀ names max_backups,
        auto_full_backup_interval max_backups ≤ count_inc_since_last_full names →
        should_force_full_interval names max_backups = true)
    ∧ auto_full_backup_interval 3 = 2
    ∧ should_force_full_interval
        [['f', 'u', 'l', 'l', '_', 'a'], ['i', 'n', 'c', '_', 'b'], ['i', 'n', 'c', '_', 'c']]
        3 = true := by
  refine ⟨fun n => ?_, fun names hall => ?_, fun names max_backups h => ?_, by decide, by decide⟩
  · rw [auto_full_backup_interval]
    split <;> omega
  · rw [count_inc_since_last_full]
    have hperm : (sortNamesDesc names).Perm names :=
      List.perm_insertionSort (fun a b : List Char => b ≤ a) names
    have hsort : (sortNamesDesc names).Pairwise fun a b : List Char => b ≤ a :=
      List.sorted_insertionSort (fun a b : List Char => b ≤ a) names
    have hall' : ∀ s ∈ sortNamesDesc names,
        startsWithFull s = true ∨ startsWithInc s = true :=
      fun s hsm => hall s (hperm.mem_iff.mp hsm)
    rw [count_inc_pre_sorted _ hsort hall']
    have hpred : ∀ x, x ∈ sortNamesDesc names →
        ((startsWithInc x
            && (sortNamesDesc names).all fun t => !startsWithFull t || decide (t < x)) = true
          ↔ (startsWithInc x
            && names.all fun t => !startsWithFull t || decide (t < x)) = true) := by
      intro x _
      simp only [Bool.and_eq_true, List.all_eq_true]
      constructor
      · rintro ⟨h1, h2⟩
        exact ⟨h1, fun t htm => h2 t (hperm.mem_iff.mpr htm)⟩
      · rintro ⟨h1, h2⟩
        exact ⟨h1, fun t htm => h2 t (hperm.mem_iff.mp htm)⟩
    rw [List.countP_congr hpred]
    exact List.Perm.countP_eq _ hperm
  · rw [should_force_full_interval]
    exact decide_eq_true h

/-- Witness for C7 at the concrete repository `[full_a, inc_b]`. -/
theorem count_inc_since_last_full_spec_witness :
    count_inc_since_last_full [['f', 'u', 'l', 'l', '_', 'a'], ['i', 'n', 'c', '_', 'b']]
      = ([['f', 'u', 'l', 'l', '_', 'a'], ['i', 'n', 'c', '_', 'b']] : List (List Char)).countP
          (fun s => startsWithInc s
            && ([['f', 'u', 'l', 'l', '_', 'a'],
                  ['i', 'n', 'c', '_', 'b']] : List (List Char)).all
                fun t => !startsWithFull t || decide (t < s)) :=
  count_inc_since_last_full_spec.2.1 _ (by decide)

/-- C5: with the snapshot list sorted ascending by timestamp (as
`list_backups` produces it), `select_backups` returns the hard error `none`
exactly when no full snapshot has timestamp lexically ≤ the cutoff (the
explicit restore point, or `99999999_999999` when absent); otherwise the
result is the latest full with timestamp ≤ cutoff followed by exactly the
non-full (`inc_`) snapshots whose timestamp is strictly greater than that
full's and ≤ cutoff, in ascending timestamp order. -/
theorem select_backups_spec (backups : List BackupEntry) (restore_point : Option (List Char))
    (hsorted : backups.Pairwise fun a b => a.timestamp ≤ b.timestamp) :
    (select_backups backups restore_point = none ↔
      ∀ b ∈ backups, b.is_full = true →
        ¬ b.timestamp ≤ restore_point.getD MAX_RESTORE_CUTOFF)
    ∧ (∀ l, select_backups backups restore_point = some l →
        ∃ f, f ∈ backups ∧ f.is_full = true
          ∧ f.timestamp ≤ restore_point.getD MAX_RESTORE_CUTOFF
          ∧ (∀ b ∈ backups, b.is_full = true →
              b.timestamp ≤ restore_point.getD MAX_RESTORE_CUTOFF →
              b.timestamp ≤ f.timestamp)
          ∧ l = f :: backups.filter (fun b =>
              !b.is_full && decide (f.timestamp < b.timestamp)
                && decide (b.timestamp ≤ restore_point.getD MAX_RESTORE_CUTOFF))
          ∧ (∀ b, b ∈ l.tail ↔ b ∈ backups ∧ b.is_full = false
              ∧ f.timestamp < b.timestamp
              ∧ b.timestamp ≤ restore_point.getD MAX_RESTORE_CUTOFF)
          ∧ l.Pairwise fun a b => a.timestamp ≤ b.timestamp) := by
  constructor
  · simp only [select_backups]
    constructor
    · intro hnone
      rcases hfind : backups.reverse.find?
          (fun b => b.is_full
            && decide (b.timestamp ≤ restore_point.getD MAX_RESTORE_CUTOFF)) with _ | f
      · rw [List.find?_eq_none] at hfind
        intro b hb hbf hble
        have := hfind b (List.mem_reverse.mpr hb)
        simp [hbf, hble] at this
      · rw [hfind] at hnone
        simp at hnone
    · intro hall
      have hfind : backups.reverse.find?
          (fun b => b.is_full
            && decide (b.timestamp ≤ restore_point.getD MAX_RESTORE_CUTOFF)) = none := by
        rw [List.find?_eq_none]
        intro b hbm hp
        have hb := List.mem_reverse.mp hbm
        have hp2 : b.is_full = true
            ∧ b.timestamp ≤ restore_point.getD MAX_RESTORE_CUTOFF := by simpa using hp
        exact hall b hb hp2.1 hp2.2
      rw [hfind]
  · intro l hl
    simp only [select_backups] at hl
    rcases hfind : backups.reverse.find?
        (fun b => b.is_full
          && decide (b.timestamp ≤ restore_point.getD MAX_RESTORE_CUTOFF)) with _ | f
    · rw [hfind] at hl
      simp at hl
    · rw [hfind] at hl
      simp only [Option.some.injEq] at hl
      have hpf : f.is_full = true
          ∧ f.timestamp ≤ restore_point.getD MAX_RESTORE_CUTOFF := by
        simpa using List.find?_some hfind
      obtain ⟨-, as, bs, hsplit, hfail⟩ := List.find?_eq_some.mp hfind
      have hback : backups = bs.reverse ++ f :: as.reverse := by
        have hrr := congrArg List.reverse hsplit
        rw [List.reverse_reverse] at hrr
        rw [hrr]
        simp [List.reverse_append]
      refine ⟨f, List.mem_reverse.mp (List.mem_of_find?_eq_some hfind), hpf.1, hpf.2,
        ?_, hl.symm, ?_, ?_⟩
      · intro b hb hbf hble
        rw [hback] at hb hsorted
        rcases List.mem_append.mp hb with hbl | hbr
        · have h3 := (List.pairwise_append.mp hsorted).2.2
          exact h3 b hbl f (List.mem_cons_self ..)
        · rcases List.mem_cons.mp hbr with rfl | hbr'
          · exact le_refl _
          · have := hfail b (List.mem_reverse.mp hbr')
            simp [hbf, hble] at this
      · intro b
        rw [← hl]
        simp only [List.tail_cons, List.mem_filter, Bool.and_eq_true, Bool.not_eq_true',
          decide_eq_true_eq]
        tauto
      · rw [← hl]
        rw [List.pairwise_cons]
        constructor
        · intro b hb
          have := (List.mem_filter.mp hb).2
          simp only [Bool.and_eq_true, decide_eq_true_eq] at this
          exact le_of_lt this.1.2
        · exact List.Pairwise.sublist (List.filter_sublist backups) hsorted

/-- Witness for C5 on a concrete sorted repository. -/
theorem select_backups_spec_witness :
    (select_backups [{ name := ['f'], is_full := true, timestamp := ['1'] }] (some ['0'])
        = none ↔
      ∀ b ∈ ([{ name := ['f'], is_full := true, timestamp := ['1'] }] : List BackupEntry),
        b.is_full = true → ¬ b.timestamp ≤ (some ['0']).getD MAX_RESTORE_CUTOFF) :=
  (select_backups_spec [{ name := ['f'], is_full := true, timestamp := ['1'] }] (some ['0'])
    (by simp)).1

theorem chunks_nil {α : Type} (bs : Nat) : chunks bs ([] : List α) = [] := by
  rw [chunks]
  simp

theorem chunks_cons {α : Type} {bs : Nat} (hbs : bs ≠ 0) {l : List α} (hl : l ≠ []) :
    chunks bs l = l.take bs :: chunks bs (l.drop bs) := by
  rw [chunks]
  simp [hbs, List.isEmpty_iff, hl]

theorem chunks_flatten {α : Type} {bs : Nat} (hbs : bs ≠ 0) (l : List α) :
    (chunks bs l).flatten = l := by
  by_cases hl : l = []
  · simp [hl, chunks_nil]
  · rw [chunks_cons hbs hl]
    simp only [List.flatten_cons]
    rw [chunks_flatten hbs (l.drop bs)]
    exact List.take_append_drop bs l
termination_by l.length
decreasing_by
  simp only [List.length_drop]
  have : 0 < bs := Nat.pos_of_ne_zero hbs
  have : 0 < l.length := List.length_pos.mpr hl
  omega

theorem writeBlocks_eq_take_flatten (size : Nat) (blocks : List (List Nat)) :
    writeBlocks size blocks = blocks.flatten.take size := by
  suffices hgen : ∀ (bls : List (List Nat)) (acc : List Nat),
      bls.foldl (fun acc b => acc ++ b.take (size - acc.length)) acc
        = acc ++ bls.flatten.take (size - acc.length) by
    simpa using hgen blocks []
  intro bls
  induction bls with
  | nil => intro acc; simp
  | cons b rest ih =>
    intro acc
    rw [List.foldl_cons, ih, List.flatten_cons, List.take_append_eq_append_take,
      ← List.append_assoc]
    congr 2
    simp only [List.length_append, List.length_take]
    omega

theorem applyChangedBlocks_cons {H : Type} (blocks : List (List Nat)) (cb : DeltaBlock H)
    (rest : List (DeltaBlock H)) :
    applyChangedBlocks blocks (cb :: rest)
      = applyChangedBlocks
          (if cb.index < blocks.length then blocks.set cb.index cb.data else blocks) rest :=
  rfl

theorem applyChangedBlocks_length {H : Type} (blocks : List (List Nat))
    (cbs : List (DeltaBlock H)) :
    (applyChangedBlocks blocks cbs).length = blocks.length := by
  induction cbs generalizing blocks with
  | nil => rfl
  | cons cb rest ih =>
    rw [applyChangedBlocks_cons, ih]
    split <;> simp [List.length_set]

theorem applyChangedBlocks_getElem?_not_mem {H : Type} (blocks : List (List Nat))
    (cbs : List (DeltaBlock H)) (i : Nat) (hno : ∀ cb ∈ cbs, cb.index ≠ i) :
    (applyChangedBlocks blocks cbs)[i]? = blocks[i]? := by
  induction cbs generalizing blocks with
  | nil => rfl
  | cons cb rest ih =>
    rw [applyChangedBlocks_cons, ih _ fun c hc => hno c (List.mem_cons_of_mem _ hc)]
    split
    · exact List.getElem?_set_ne (hno cb (List.mem_cons_self ..))
    · rfl

theorem applyChangedBlocks_getElem?_mem {H : Type} (blocks : List (List Nat))
    (cbs : List (DeltaBlock H)) (cb : DeltaBlock H)
    (hnd : (cbs.map fun c => c.index).Nodup) (hcb : cb ∈ cbs)
    (hi : cb.index < blocks.length) :
    (applyChangedBlocks blocks cbs)[cb.index]? = some cb.data := by
  induction cbs generalizing blocks with
  | nil => simp at hcb
  | cons a rest ih =>
    rw [List.map_cons, List.nodup_cons] at hnd
    rw [applyChangedBlocks_cons]
    rcases List.mem_cons.mp hcb with rfl | hcbr
    · rw [if_pos hi]
      have hnone : ∀ c ∈ rest, c.index ≠ cb.index := by
        intro c hc heq
        exact hnd.1 (heq ▸ List.mem_map_of_mem _ hc)
      rw [applyChangedBlocks_getElem?_not_mem _ _ _ hnone]
      exact List.getElem?_set_self hi
    · have hidx : a.index ≠ cb.index := by
        intro heq
        exact hnd.1 (heq ▸ List.mem_map_of_mem _ hcbr)
      by_cases ha : a.index < blocks.length
      · rw [if_pos ha]
        exact ih _ hnd.2 hcbr (by simpa [List.length_set] using hi)
      · rw [if_neg ha]
        exact ih _ hnd.2 hcbr hi

theorem create_delta_original_hashes {H : Type} (h : List Nat → H) (prev : Option (List Nat)) :
    (match prev with
      | some content => calculate_block_hashes h content
      | none => ([] : List H)) = (chunks BLOCK_SIZE (prevBytes prev)).map h := by
  cases prev with
  | none => simp [calculate_block_hashes, chunks, prevBytes]
  | some c => rfl

theorem create_delta_eq {H : Type} [DecidableEq H] (h : List Nat → H) (prev : Option (List Nat))
    (new : List Nat) :
    create_delta h prev new =
      { original_file_hash := h (prevBytes prev)
        block_size := BLOCK_SIZE
        total_blocks := (chunks BLOCK_SIZE new).length
        changed_blocks := ((chunks BLOCK_SIZE new).enum.filter fun p =>
            decide (¬ ((chunks BLOCK_SIZE (prevBytes prev)).map h)[p.1]? = some (h p.2))).map
          fun p => { index := p.1, hash := h p.2, data := p.2 }
        new_file_size := new.length } := by
  cases prev with
  | none =>
    have h0 : chunks BLOCK_SIZE ([] : List Nat) = [] := chunks_nil _
    simp only [create_delta, prevBytes, h0, List.map_nil]
  | some c => rfl

theorem applyChanged_create_blocks {H : Type} [DecidableEq H] (h : List Nat → H)
    (hinj : Function.Injective h) (pcl ncl : List (List Nat)) :
    applyChangedBlocks (pcl ++ List.replicate (ncl.length - pcl.length) [])
        ((ncl.enum.filter fun p => decide (¬ (pcl.map h)[p.1]? = some (h p.2))).map
          fun p => ({ index := p.1, hash := h p.2, data := p.2 } : DeltaBlock H))
      = ncl ++ pcl.drop ncl.length := by
  set C := (ncl.enum.filter fun p => decide (¬ (pcl.map h)[p.1]? = some (h p.2))).map
      (fun p => ({ index := p.1, hash := h p.2, data := p.2 } : DeltaBlock H)) with hC
  have hCfact : ∀ cb ∈ C, cb.index < ncl.length ∧ ncl[cb.index]? = some cb.data
      ∧ ¬ (pcl.map h)[cb.index]? = some (h cb.data) := by
    intro cb hcb
    rw [hC] at hcb
    obtain ⟨⟨j, b⟩, hpf, rfl⟩ := List.mem_map.mp hcb
    obtain ⟨hpenum, hpred⟩ := List.mem_filter.mp hpf
    have hget : ncl[j]? = some b := List.mk_mem_enum_iff_getElem?.mp hpenum
    exact ⟨(List.getElem?_eq_some.mp hget).1, hget, by simpa using hpred⟩
  have hnd : (C.map fun c => c.index).Nodup := by
    have hmm : (C.map fun c => c.index)
        = (ncl.enum.filter fun p =>
            decide (¬ (pcl.map h)[p.1]? = some (h p.2))).map Prod.fst := by
      rw [hC, List.map_map]
      rfl
    rw [hmm]
    have hsub : ((ncl.enum.filter fun p =>
        decide (¬ (pcl.map h)[p.1]? = some (h p.2))).map Prod.fst).Sublist
          (ncl.enum.map Prod.fst) :=
      List.Sublist.map Prod.fst (List.filter_sublist ncl.enum)
    rw [List.enum_map_fst] at hsub
    exact List.Nodup.sublist hsub (List.nodup_range _)
  apply List.ext_getElem?
  intro i
  have hlen1 : (pcl ++ List.replicate (ncl.length - pcl.length) ([] : List Nat)).length
      = pcl.length + (ncl.length - pcl.length) := by simp
  by_cases hi : i < ncl.length
  · have hb : ncl[i]? = some ncl[i] := List.getElem?_eq_getElem hi
    by_cases hch : (pcl.map h)[i]? = some (h ncl[i])
    · have hpcb : pcl[i]? = some ncl[i] := by
        rw [List.getElem?_map] at hch
        obtain ⟨x, hx, hfx⟩ := Option.map_eq_some'.mp hch
        rw [hx, hinj hfx]
      have hnomem : ∀ cb ∈ C, cb.index ≠ i := by
        intro cb hcb heq
        obtain ⟨hlt, hget, hpred⟩ := hCfact cb hcb
        rw [heq] at hget hpred
        rw [hb] at hget
        have hdb : cb.data = ncl[i] := (Option.some.inj hget).symm
        exact hpred (hdb ▸ hch)
      have hL := applyChangedBlocks_getElem?_not_mem
        (pcl ++ List.replicate (ncl.length - pcl.length) []) C i hnomem
      have hiplt : i < pcl.length := (List.getElem?_eq_some.mp hpcb).1
      have hL2 : (pcl ++ List.replicate (ncl.length - pcl.length) ([] : List Nat))[i]?
          = some ncl[i] := by
        rw [List.getElem?_append, if_pos hiplt]
        exact hpcb
      have hR : (ncl ++ pcl.drop ncl.length)[i]? = some ncl[i] := by
        rw [List.getElem?_append, if_pos hi]
        exact hb
      rw [hL, hL2, hR]
    · have hmem : ({ index := i, hash := h ncl[i], data := ncl[i] } : DeltaBlock H) ∈ C := by
        rw [hC]
        apply List.mem_map.mpr
        refine ⟨(i, ncl[i]), ?_, rfl⟩
        apply List.mem_filter.mpr
        exact ⟨List.mk_mem_enum_iff_getElem?.mpr hb, by simpa using hch⟩
      have hidxlt : i < (pcl ++ List.replicate (ncl.length - pcl.length)
          ([] : List Nat)).length := by
        rw [hlen1]
        omega
      have hL := applyChangedBlocks_getElem?_mem
        (pcl ++ List.replicate (ncl.length - pcl.length) []) C
        { index := i, hash := h ncl[i], data := ncl[i] } hnd hmem hidxlt
      have hR : (ncl ++ pcl.drop ncl.length)[i]? = some ncl[i] := by
        rw [List.getElem?_append, if_pos hi]
        exact hb
      rw [hR]
      exact hL
  · have hnomem : ∀ cb ∈ C, cb.index ≠ i := by
      intro cb hcb heq
      obtain ⟨hlt, -, -⟩ := hCfact cb hcb
      omega
    have hL := applyChangedBlocks_getElem?_not_mem
      (pcl ++ List.replicate (ncl.length - pcl.length) []) C i hnomem
    have hR : (ncl ++ pcl.drop ncl.length)[i]? = pcl[i]? := by
      rw [List.getElem?_append, if_neg (by omega)]
      rw [List.getElem?_drop]
      congr 1
      omega
    have hL2 : (pcl ++ List.replicate (ncl.length - pcl.length) ([] : List Nat))[i]?
        = pcl[i]? := by
      by_cases hip : i < pcl.length
      · rw [List.getElem?_append, if_pos hip]
      · rw [List.getElem?_append, if_neg hip]
        rw [List.getElem?_replicate, if_neg (by omega)]
        symm
        exact List.getElem?_eq_none (by omega)
    rw [hL, hL2, hR]

/-- C1: applying the delta produced by `create_delta(prev, new)` against the
same prior content reconstructs `new` byte-exactly, and the output length
equals `delta.new_file_size` (the truncation bound); this holds also when
the prior file does not exist (`prev = none`, the prior block list is
empty).  The SHA-256 hash is modelled as an arbitrary injective function
(collision-freedom of the block hash). -/
theorem apply_create_delta_roundtrip {H : Type} [DecidableEq H] (h : List Nat → H)
    (hinj : Function.Injective h) (prev : Option (List Nat)) (new : List Nat) :
    apply_delta prev (create_delta h prev new) = new
    ∧ (apply_delta prev (create_delta h prev new)).length
        = (create_delta h prev new).new_file_size := by
  have hbs : BLOCK_SIZE ≠ 0 := by decide
  have hmain : apply_delta prev (create_delta h prev new) = new := by
    rw [create_delta_eq]
    show writeBlocks new.length
        (applyChangedBlocks
          (chunks BLOCK_SIZE (prevBytes prev)
            ++ List.replicate ((chunks BLOCK_SIZE new).length
                - (chunks BLOCK_SIZE (prevBytes prev)).length) [])
          (((chunks BLOCK_SIZE new).enum.filter fun p =>
              decide (¬ ((chunks BLOCK_SIZE (prevBytes prev)).map h)[p.1]?
                = some (h p.2))).map
            fun p => { index := p.1, hash := h p.2, data := p.2 })) = new
    rw [applyChanged_create_blocks h hinj]
    rw [writeBlocks_eq_take_flatten, List.flatten_append, chunks_flatten hbs]
    exact List.take_left new _
  refine ⟨hmain, ?_⟩
  rw [hmain, create_delta_eq]

/-- Witness for C1 with the (injective) identity hash at a concrete pair of
contents. -/
theorem apply_create_delta_roundtrip_witness :
    Function.Injective (fun l : List Nat => l)
    ∧ apply_delta (some [1, 2]) (create_delta (fun l : List Nat => l) (some [1, 2]) [3, 4, 5])
        = [3, 4, 5] :=
  ⟨fun _ _ hh => hh,
    (apply_create_delta_roundtrip (fun l : List Nat => l) (fun _ _ hh => hh)
      (some [1, 2]) [3, 4, 5]).1⟩

end Ardiex
